import Mathlib

/-! Formal model of the date-range chunking function split_dates_by_limit
    from helpers.py, together with the Gregorian calendar conversions
    needed to interpret date strings in the default %m/%d/%y format.
    Timestamps are modelled, as in pandas, as integer counts of
    nanoseconds since the Unix epoch; parsed dates land on midnights,
    that is on exact multiples of the day length. -/

namespace Oasis

/-- Nanoseconds per day: pandas timestamps and timedeltas count integer
    nanoseconds, and the literal 1 in the source line
    new_end_date = dt_start_date + limit - pd.Timedelta(1)
    is one nanosecond. -/
def nsPerDay : Int := 86400000000000

/-- Days since the Unix epoch of a Gregorian civil date (proleptic
    Gregorian calendar, the calendar pandas timestamps use). -/
def daysFromCivil (y m d : Int) : Int :=
  let y2 := if m ≤ 2 then y - 1 else y
  let era := y2.ediv 400
  let yoe := y2 - era * 400
  let mp := if 2 < m then m - 3 else m + 9
  let doy := (153 * mp + 2).ediv 5 + d - 1
  let doe := yoe * 365 + yoe.ediv 4 - yoe.ediv 100 + doy
  era * 146097 + doe - 719468

/-- Gregorian civil date (year, month, day) of a day count since the epoch. -/
def civilFromDays (z0 : Int) : Int × Int × Int :=
  let z := z0 + 719468
  let era := z.ediv 146097
  let doe := z - era * 146097
  let yoe := (doe - doe.ediv 1460 + doe.ediv 36524 - doe.ediv 146096).ediv 365
  let y := yoe + era * 400
  let doy := doe - (365 * yoe + yoe.ediv 4 - yoe.ediv 100)
  let mp := (5 * doy + 2).ediv 153
  let d := doy - (153 * mp + 2).ediv 5 + 1
  let m := mp + (if mp < 10 then 3 else -9)
  (if m ≤ 2 then y + 1 else y, m, d)

def isLeapYear (y : Int) : Bool :=
  (y.emod 4 == 0 && y.emod 100 != 0) || y.emod 400 == 0

def daysInMonth (y m : Int) : Int :=
  if m = 2 then (if isLeapYear y then 29 else 28)
  else if m = 4 ∨ m = 6 ∨ m = 9 ∨ m = 11 then 30
  else 31

/-- Value of a list of decimal digit characters, none when a character
    is not a digit. -/
def digitsToNat (cs : List Char) : Option Nat :=
  cs.foldl
    (fun acc c =>
      acc.bind fun n => if c.isDigit then some (10 * n + (c.toNat - 48)) else none)
    (some 0)

/-- Split a character list into the fields separated by the slash
    character, as the %m/%d/%y pattern reads its three fields. -/
def splitSlash : List Char → List Char → List (List Char)
  | [], acc => [acc.reverse]
  | c :: rest, acc =>
    if c = '/' then acc.reverse :: splitSlash rest []
    else splitSlash rest (c :: acc)

/-- Parse one date field of one or two digits, as strptime does for the
    %m, %d and %y directives. -/
def parseField (cs : List Char) : Option Nat :=
  if cs.length = 0 ∨ 2 < cs.length then none else digitsToNat cs

/-- strptime two-digit year rule: 00-68 map to 2000-2068 and 69-99 map
    to 1969-1999. -/
def yearOfYY (yy : Nat) : Int :=
  if yy ≤ 68 then 2000 + (yy : Int) else 1900 + (yy : Int)

/-- Model of pd.to_datetime under the default format %m/%d/%y: the day
    count since the epoch of the parsed date, or none when the string
    does not parse as a valid calendar date (the source then raises and
    split_dates_by_limit fails before producing any output). -/
def parseMDY (s : String) : Option Int :=
  match (splitSlash s.data []).map parseField with
  | [some m, some d, some yy] =>
    let y := yearOfYY yy
    if 1 ≤ m ∧ (m : Int) ≤ 12 ∧ 1 ≤ d ∧ (d : Int) ≤ daysInMonth y (m : Int) then
      some (daysFromCivil y (m : Int) (d : Int))
    else none
  | _ => none

/-- Two-digit zero padded decimal rendering of a small number. -/
def pad2 (n : Nat) : String := if n < 10 then "0" ++ toString n else toString n

/-- Model of strftime under %m/%d/%y applied to a day count. -/
def formatMDY (z : Int) : String :=
  let c := civilFromDays z
  pad2 c.2.1.toNat ++ "/" ++ pad2 c.2.2.toNat ++ "/" ++ pad2 (c.1.emod 100).toNat

/-- Calendar day of a nanosecond timestamp: strftime renders the day the
    instant falls in, so one nanosecond before a midnight renders as the
    previous day. -/
def tsDate (t : Int) : Int := t / nsPerDay

/-- Model of strftime under %m/%d/%y applied to a nanosecond timestamp. -/
def formatTs (t : Int) : String := formatMDY (tsDate t)

/-- The failure modes of split_dates_by_limit: a pandas parse error on a
    malformed date string, or the uncaught division by zero raised by
    math.ceil(dt_delta / limit) when the limit timedelta is zero. -/
inductive SplitError
  | malformedInput
  | zeroDivision
deriving DecidableEq, Repr

/-- The dictionary the source returns: two parallel lists of date
    strings. -/
structure SplitDict where
  start_dates : List String
  end_dates : List String
deriving DecidableEq, Repr

/-- Exact integer ceiling of a divided by b, the value of
    math.ceil(dt_delta / limit) on timedeltas; division on Int is
    floor division, so the ceiling is the negated floor of the
    negated quotient. -/
def ceilTd (a b : Int) : Int :=
  if 0 < b then (a + b - 1) / b else -(a / (-b))

/-- The while loop of split_dates_by_limit. One iteration appends
    new_start_date to start_dates and advances it by limit; it then
    either appends new_end_date + limit and advances new_end_date
    (when new_end_date < dt_end_date and dt_end_date - new_end_date >
    limit) or appends new_end_date + (dt_end_date - new_end_date),
    leaving new_end_date unchanged. The loop runs while
    len(start_dates) < splits; the fuel argument counts the remaining
    iterations. -/
def splitLoop (L dtEnd : Int) : Nat → Int → Int → List Int → List Int → List Int × List Int
  | 0, _, _, ss, es => (ss, es)
  | Nat.succ n, newStart, newEnd, ss, es =>
    let ss2 := ss ++ [newStart]
    let newStart2 := newStart + L
    if newEnd < dtEnd ∧ dtEnd - newEnd > L then
      splitLoop L dtEnd n newStart2 (newEnd + L) ss2 (es ++ [newEnd + L])
    else
      splitLoop L dtEnd n newStart2 newEnd ss2 (es ++ [newEnd + (dtEnd - newEnd)])

/-- Core of split_dates_by_limit on parsed values: dtStart and dtEnd are
    the parsed timestamps in nanoseconds, L is the limit timedelta in
    nanoseconds. Returns none when limit > dt_delta (a single call
    suffices), the division by zero error when the limit timedelta is
    zero, and otherwise the start and end timestamp lists built by the
    loop, seeded with dt_start_date and dt_start_date + limit - 1ns and
    run for splits - len iterations where splits =
    ceil(dt_delta / limit). -/
def splitCore (dtStart dtEnd L : Int) : Except SplitError (Option (List Int × List Int)) :=
  let delta := dtEnd - dtStart
  if L > delta then .ok none
  else if L = 0 then .error .zeroDivision
  else
    let newStart := dtStart + L
    let newEnd := dtStart + L - 1
    let splits := ceilTd delta L
    .ok (some (splitLoop L dtEnd (splits - 1).toNat newStart newEnd [dtStart] [newEnd]))

/-- split_dates_by_limit with the default date_format %m/%d/%y: parse
    both dates (raising on a malformed string), run the core split, and
    render every timestamp of both lists back through strftime. -/
def splitDatesByLimit (startDate endDate : String) (limit : Int) :
    Except SplitError (Option SplitDict) :=
  match parseMDY startDate, parseMDY endDate with
  | some ds, some de =>
    (splitCore (ds * nsPerDay) (de * nsPerDay) (limit * nsPerDay)).map
      (Option.map fun p => ⟨p.1.map formatTs, p.2.map formatTs⟩)
  | _, _ => .error .malformedInput

deriving instance DecidableEq for Except

/-! Helper lemmas on the ceiling division used for the chunk count. -/

/-- Characterisation of the chunk count: for a positive divisor,
    ceilTd a b is the least q with a ≤ q * b. -/
theorem ceilTd_char (a b : Int) (hb : 0 < b) :
    a ≤ ceilTd a b * b ∧ ceilTd a b * b < a + b := by
  have hbne : b ≠ 0 := ne_of_gt hb
  have hdm := Int.ediv_add_emod (a + b - 1) b
  have h0 : 0 ≤ (a + b - 1) % b := Int.emod_nonneg _ hbne
  have h1 : (a + b - 1) % b < b := Int.emod_lt_of_pos _ hb
  unfold ceilTd
  rw [if_pos hb]
  constructor <;> linarith [hdm, h0, h1, mul_comm ((a + b - 1) / b) b]

/-- Any two integers satisfying the ceiling characterisation agree. -/
theorem ceil_unique (a b p q : Int) (hb : 0 < b)
    (hp1 : a ≤ p * b) (hp2 : p * b < a + b)
    (hq1 : a ≤ q * b) (hq2 : q * b < a + b) : p = q := by
  have h1 : p * b < (q + 1) * b := by nlinarith
  have h2 : q * b < (p + 1) * b := by nlinarith
  have h3 : p < q + 1 := lt_of_mul_lt_mul_right h1 (le_of_lt hb)
  have h4 : q < p + 1 := lt_of_mul_lt_mul_right h2 (le_of_lt hb)
  omega

/-- Scale invariance of the chunk count: computing the ceiling on
    nanosecond quantities or on day counts gives the same value. -/
theorem ceilTd_scale (a b c : Int) (hb : 0 < b) (hc : 0 < c) :
    ceilTd (a * c) (b * c) = ceilTd a b := by
  have hbc : 0 < b * c := mul_pos hb hc
  obtain ⟨h1, h2⟩ := ceilTd_char (a * c) (b * c) hbc
  obtain ⟨h3, h4⟩ := ceilTd_char a b hb
  refine ceil_unique (a * c) (b * c) _ _ hbc h1 h2 ?_ ?_
  · calc a * c ≤ (ceilTd a b * b) * c := by nlinarith
    _ = ceilTd a b * (b * c) := by ring
  · calc ceilTd a b * (b * c) = (ceilTd a b * b) * c := by ring
    _ < (a + b) * c := by nlinarith
    _ = a * c + b * c := by ring

/-- Prepending the image of zero to a shifted range map gives the map
    over the longer range. -/
theorem cons_range_map {α : Type} (g : Nat → α) (n : Nat) :
    g 0 :: (List.range n).map (fun i => g (i + 1)) = (List.range (n + 1)).map g := by
  rw [List.range_succ_eq_map, List.map_cons, List.map_map]
  rfl

/-- The start entries produced from chunk index j on. -/
def startsFrom (dtStart L j : Int) (n : Nat) : List Int :=
  (List.range n).map fun (i : Nat) => dtStart + (j + (i : Int)) * L

/-- The end entries produced from chunk index j on: one nanosecond
    before the next chunk start while more than a full chunk remains,
    and the overall end timestamp afterwards. -/
def endsFrom (dtStart dtEnd L j : Int) (n : Nat) : List Int :=
  (List.range n).map fun (i : Nat) =>
    if (j + (i : Int) + 1) * L ≤ dtEnd - dtStart then dtStart + (j + (i : Int) + 1) * L - 1
    else dtEnd

theorem splitLoop_eq (L dtStart dtEnd splits : Int) (hL : 0 < L)
    (hc2 : splits * L < dtEnd - dtStart + L) :
    ∀ (n : Nat) (j : Int), 1 ≤ j → j + (n : Int) = splits → ∀ ss es,
      splitLoop L dtEnd n (dtStart + j * L) (dtStart + j * L - 1) ss es =
        (ss ++ startsFrom dtStart L j n, es ++ endsFrom dtStart dtEnd L j n) := by
  intro n
  induction n with
  | zero => intro j hj hsum ss es; simp [splitLoop, startsFrom, endsFrom]
  | succ n ih =>
    intro j hj hsum ss es
    have hj1L : (j + 1) * L = j * L + L := by ring
    by_cases hbr : (j + 1) * L ≤ dtEnd - dtStart
    · have hcond : dtStart + j * L - 1 < dtEnd ∧ dtEnd - (dtStart + j * L - 1) > L := by
        refine ⟨by linarith, by linarith⟩
      simp only [splitLoop]
      rw [if_pos hcond]
      have e1 : dtStart + j * L + L = dtStart + (j + 1) * L := by ring
      have e2 : dtStart + j * L - 1 + L = dtStart + (j + 1) * L - 1 := by ring
      rw [e1, e2, ih (j + 1) (by omega) (by push_cast at hsum ⊢; omega)]
      simp only [Prod.mk.injEq]
      constructor
      · rw [List.append_assoc, List.singleton_append]
        congr 1
        unfold startsFrom
        have e3 : (fun (i : Nat) => dtStart + (j + 1 + (i : Int)) * L) =
            (fun (i : Nat) => dtStart + (j + ((i + 1 : Nat) : Int)) * L) := by
          funext i; push_cast; ring_nf
        have e4 : dtStart + j * L = dtStart + (j + ((0 : Nat) : Int)) * L := by
          push_cast; ring
        rw [e3, e4]
        exact cons_range_map (fun (i : Nat) => dtStart + (j + (i : Int)) * L) n
      · rw [List.append_assoc, List.singleton_append]
        congr 1
        unfold endsFrom
        have e3 : (fun (i : Nat) =>
            if (j + 1 + (i : Int) + 1) * L ≤ dtEnd - dtStart then
              dtStart + (j + 1 + (i : Int) + 1) * L - 1
            else dtEnd) =
            (fun (i : Nat) =>
            if (j + ((i + 1 : Nat) : Int) + 1) * L ≤ dtEnd - dtStart then
              dtStart + (j + ((i + 1 : Nat) : Int) + 1) * L - 1
            else dtEnd) := by
          funext i; push_cast; ring_nf
        have e4 : dtStart + (j + 1) * L - 1 =
            (if (j + ((0 : Nat) : Int) + 1) * L ≤ dtEnd - dtStart then
              dtStart + (j + ((0 : Nat) : Int) + 1) * L - 1
            else dtEnd) := by
          rw [if_pos (by push_cast; linarith)]
          push_cast; ring
        rw [e3, e4]
        exact cons_range_map (fun (i : Nat) =>
            if (j + (i : Int) + 1) * L ≤ dtEnd - dtStart then
              dtStart + (j + (i : Int) + 1) * L - 1
            else dtEnd) n
    · push_neg at hbr
      have hn : n = 0 := by
        have hsp : splits = j + (n : Int) + 1 := by push_cast at hsum; omega
        have hexp : (j + (n : Int) + 1) * L = j * L + (n : Int) * L + L := by ring
        have hnL : (n : Int) * L < 1 * L := by
          rw [one_mul]; rw [hsp] at hc2; linarith
        have : (n : Int) < 1 := lt_of_mul_lt_mul_right hnL (le_of_lt hL)
        omega
      have hcond : ¬(dtStart + j * L - 1 < dtEnd ∧ dtEnd - (dtStart + j * L - 1) > L) := by
        rintro ⟨-, h2⟩
        linarith
      have hr1 : List.range 1 = [0] := rfl
      have hs1 : startsFrom dtStart L j 1 = [dtStart + j * L] := by
        unfold startsFrom
        rw [hr1]
        simp
      have he1 : endsFrom dtStart dtEnd L j 1 = [dtEnd] := by
        unfold endsFrom
        rw [hr1]
        simp only [List.map_cons, List.map_nil, Nat.cast_zero, add_zero]
        rw [if_neg (not_le.mpr hbr)]
      simp only [splitLoop]
      rw [if_neg hcond]
      subst hn
      simp only [splitLoop, hs1, he1, Prod.mk.injEq]
      refine ⟨by trivial, ?_⟩
      have : dtStart + j * L - 1 + (dtEnd - (dtStart + j * L - 1)) = dtEnd := by ring
      rw [this]

/-- Peeling the first chunk start off a run of chunk starts. -/
theorem startsFrom_cons (dtStart L j : Int) (n : Nat) :
    startsFrom dtStart L j (n + 1) = (dtStart + j * L) :: startsFrom dtStart L (j + 1) n := by
  unfold startsFrom
  rw [← cons_range_map (fun (i : Nat) => dtStart + (j + (i : Int)) * L) n]
  congr 1
  · push_cast; ring
  · congr 1
    funext i
    push_cast
    ring

/-- Peeling the first chunk end off a run of chunk ends, when at least
    one full chunk fits in the remaining span. -/
theorem endsFrom_cons (dtStart dtEnd L j : Int) (n : Nat)
    (h : (j + 1) * L ≤ dtEnd - dtStart) :
    endsFrom dtStart dtEnd L j (n + 1) =
      (dtStart + (j + 1) * L - 1) :: endsFrom dtStart dtEnd L (j + 1) n := by
  unfold endsFrom
  rw [← cons_range_map (fun (i : Nat) =>
      if (j + (i : Int) + 1) * L ≤ dtEnd - dtStart then dtStart + (j + (i : Int) + 1) * L - 1
      else dtEnd) n]
  congr 1
  · rw [if_pos (by push_cast; linarith)]
    push_cast; ring
  · congr 1
    funext i
    push_cast
    ring_nf

/-- Master description of the core split in the splitting regime: when
    the limit is positive and the span is at least the limit, the call
    returns the chunk starts dtStart + i * L and the chunk ends, which
    sit one nanosecond before the following start while more than a
    full chunk remains and equal dtEnd afterwards, for i below
    splits = ceil(delta / limit). -/
theorem splitCore_spec (dtStart dtEnd L : Int) (hL : 0 < L) (hD : L ≤ dtEnd - dtStart) :
    splitCore dtStart dtEnd L =
      .ok (some (startsFrom dtStart L 0 (ceilTd (dtEnd - dtStart) L).toNat,
                 endsFrom dtStart dtEnd L 0 (ceilTd (dtEnd - dtStart) L).toNat)) := by
  obtain ⟨hch1, hch2⟩ := ceilTd_char (dtEnd - dtStart) L hL
  set q := ceilTd (dtEnd - dtStart) L with hqdef
  have hq1 : 1 ≤ q := by
    by_contra h
    push_neg at h
    have hq0 : q ≤ 0 := by omega
    have h2 : q * L ≤ 0 * L := mul_le_mul_of_nonneg_right hq0 (le_of_lt hL)
    rw [zero_mul] at h2
    linarith
  simp only [splitCore]
  rw [if_neg (by omega : ¬ L > dtEnd - dtStart), if_neg (by omega : ¬ L = 0)]
  have e1 : dtStart + L = dtStart + 1 * L := by ring
  rw [e1, ← hqdef,
    splitLoop_eq L dtStart dtEnd q hL hch2 (q - 1).toNat 1 le_rfl (by omega)]
  have hqn : q.toNat = (q - 1).toNat + 1 := by omega
  rw [hqn, startsFrom_cons, endsFrom_cons dtStart dtEnd L 0 (q - 1).toNat
    (by rw [zero_add, one_mul]; exact hD)]
  rw [List.singleton_append, List.singleton_append]
  congr 3
  ring_nf

/-! Bridge lemmas from nanosecond timestamps to calendar days. -/

theorem nsPerDay_pos : (0 : Int) < nsPerDay := by norm_num [nsPerDay]

/-- The calendar day of a midnight timestamp. -/
theorem tsDate_mul (x : Int) : tsDate (x * nsPerDay) = x := by
  unfold tsDate
  exact Int.mul_ediv_cancel x (ne_of_gt nsPerDay_pos)

/-- The calendar day of the instant one nanosecond before a midnight is
    the preceding day. -/
theorem tsDate_mul_sub_one (x : Int) : tsDate (x * nsPerDay - 1) = x - 1 := by
  unfold tsDate
  have e : x * nsPerDay - 1 = (nsPerDay - 1) + (x - 1) * nsPerDay := by ring
  rw [e, Int.add_mul_ediv_right _ _ (ne_of_gt nsPerDay_pos),
    Int.ediv_eq_zero_of_lt (by norm_num [nsPerDay]) (by norm_num [nsPerDay])]
  ring

/-- The calendar days of the chunk starts: ds, ds + limit,
    ds + 2 * limit, and so on. -/
theorem startsFrom_days (ds limit : Int) (n : Nat) :
    (startsFrom (ds * nsPerDay) (limit * nsPerDay) 0 n).map tsDate =
      (List.range n).map (fun (i : Nat) => ds + (i : Int) * limit) := by
  unfold startsFrom
  rw [List.map_map]
  congr 1
  funext i
  simp only [Function.comp]
  have e : ds * nsPerDay + ((0 : Int) + (i : Int)) * (limit * nsPerDay) =
      (ds + (i : Int) * limit) * nsPerDay := by ring
  rw [e, tsDate_mul]

/-- The calendar days of the chunk ends: the day before the next chunk
    start while more than a full chunk remains, and the final day de
    afterwards. -/
theorem endsFrom_days (ds de limit : Int) (n : Nat) :
    (endsFrom (ds * nsPerDay) (de * nsPerDay) (limit * nsPerDay) 0 n).map tsDate =
      (List.range n).map (fun (i : Nat) =>
        if ((i : Int) + 1) * limit ≤ de - ds then ds + ((i : Int) + 1) * limit - 1 else de) := by
  unfold endsFrom
  rw [List.map_map]
  congr 1
  funext i
  simp only [Function.comp]
  rw [apply_ite tsDate]
  have ec : (((0 : Int) + (i : Int) + 1) * (limit * nsPerDay) ≤ de * nsPerDay - ds * nsPerDay)
      ↔ (((i : Int) + 1) * limit ≤ de - ds) := by
    have e1 : ((0 : Int) + (i : Int) + 1) * (limit * nsPerDay) =
        (((i : Int) + 1) * limit) * nsPerDay := by ring
    have e2 : de * nsPerDay - ds * nsPerDay = (de - ds) * nsPerDay := by ring
    rw [e1, e2]
    exact mul_le_mul_right nsPerDay_pos
  have e3 : ds * nsPerDay + ((0 : Int) + (i : Int) + 1) * (limit * nsPerDay) - 1 =
      (ds + ((i : Int) + 1) * limit) * nsPerDay - 1 := by ring
  rw [e3, tsDate_mul_sub_one, tsDate_mul]
  by_cases hc : ((i : Int) + 1) * limit ≤ de - ds
  · rw [if_pos (ec.mpr hc), if_pos hc]
  · rw [if_neg (fun h => hc (ec.mp h)), if_neg hc]

/-- String-level description of split_dates_by_limit in the splitting
    regime: both dates parse, the limit is positive and the span is at
    least the limit; the returned dictionary holds the strftime images
    of the chunk start and end timestamps. -/
theorem splitDatesByLimit_spec (s1 s2 : String) (ds de limit : Int)
    (h1 : parseMDY s1 = some ds) (h2 : parseMDY s2 = some de)
    (hl : 0 < limit) (hD : limit ≤ de - ds) :
    splitDatesByLimit s1 s2 limit =
      .ok (some
        ⟨(startsFrom (ds * nsPerDay) (limit * nsPerDay) 0
            (ceilTd (de - ds) limit).toNat).map formatTs,
         (endsFrom (ds * nsPerDay) (de * nsPerDay) (limit * nsPerDay) 0
            (ceilTd (de - ds) limit).toNat).map formatTs⟩) := by
  have hL : 0 < limit * nsPerDay := mul_pos hl nsPerDay_pos
  have hDns : limit * nsPerDay ≤ de * nsPerDay - ds * nsPerDay := by
    have e : de * nsPerDay - ds * nsPerDay = (de - ds) * nsPerDay := by ring
    rw [e]
    exact mul_le_mul_of_nonneg_right hD (le_of_lt nsPerDay_pos)
  have hceil : ceilTd (de * nsPerDay - ds * nsPerDay) (limit * nsPerDay) =
      ceilTd (de - ds) limit := by
    have e : de * nsPerDay - ds * nsPerDay = (de - ds) * nsPerDay := by ring
    rw [e, ceilTd_scale (de - ds) limit nsPerDay hl nsPerDay_pos]
  unfold splitDatesByLimit
  rw [h1, h2]
  show Except.map
      (Option.map fun p => (⟨p.1.map formatTs, p.2.map formatTs⟩ : SplitDict))
      (splitCore (ds * nsPerDay) (de * nsPerDay) (limit * nsPerDay)) = _
  rw [splitCore_spec (ds * nsPerDay) (de * nsPerDay) (limit * nsPerDay) hL hDns, hceil]
  rfl

/-- At least one chunk is needed once the span reaches the limit. -/
theorem ceilTd_pos (a b : Int) (hb : 0 < b) (hab : b ≤ a) : 1 ≤ ceilTd a b := by
  obtain ⟨h1, h2⟩ := ceilTd_char a b hb
  by_contra h
  push_neg at h
  have hq0 : ceilTd a b ≤ 0 := by omega
  have h3 : ceilTd a b * b ≤ 0 * b := mul_le_mul_of_nonneg_right hq0 (le_of_lt hb)
  rw [zero_mul] at h3
  linarith

/-- Reading an entry of a mapped range with a default. -/
theorem getD_range_map {α : Type} (f : Nat → α) (n i : Nat) (d : α) (h : i < n) :
    ((List.range n).map f).getD i d = f i := by
  simp [List.getD_eq_getElem?_getD, List.getElem?_map, List.getElem?_range, h]

theorem length_range_map {α : Type} (f : Nat → α) (n : Nat) :
    ((List.range n).map f).length = n := by simp

theorem startsFrom_length (dtStart L j : Int) (n : Nat) : (startsFrom dtStart L j n).length = n := by
  unfold startsFrom; simp

theorem endsFrom_length (dtStart dtEnd L j : Int) (n : Nat) :
    (endsFrom dtStart dtEnd L j n).length = n := by
  unfold endsFrom; simp

/-- C2: for date strings parsing to days ds and de with ds ≤ de under
    the %m/%d/%y format and a positive limit, split_dates_by_limit
    returns None exactly when the span de - ds is strictly below the
    limit, and otherwise returns a dictionary of start and end dates. -/
theorem split_none_iff (s1 s2 : String) (ds de limit : Int)
    (h1 : parseMDY s1 = some ds) (h2 : parseMDY s2 = some de)
    (hl : 0 < limit) (_hse : ds ≤ de) :
    (splitDatesByLimit s1 s2 limit = .ok none ↔ de - ds < limit) ∧
    (limit ≤ de - ds → ∃ d : SplitDict, splitDatesByLimit s1 s2 limit = .ok (some d)) := by
  constructor
  · constructor
    · intro h
      by_contra hlt
      push_neg at hlt
      rw [splitDatesByLimit_spec s1 s2 ds de limit h1 h2 hl hlt] at h
      simp at h
    · intro hlt
      unfold splitDatesByLimit
      rw [h1, h2]
      show Except.map
          (Option.map fun p => (⟨p.1.map formatTs, p.2.map formatTs⟩ : SplitDict))
          (splitCore (ds * nsPerDay) (de * nsPerDay) (limit * nsPerDay)) = _
      have hgt : limit * nsPerDay > de * nsPerDay - ds * nsPerDay := by
        have e : de * nsPerDay - ds * nsPerDay = (de - ds) * nsPerDay := by ring
        rw [e]
        exact mul_lt_mul_of_pos_right hlt nsPerDay_pos
      simp only [splitCore]
      rw [if_pos hgt]
      rfl
  · intro hlt
    exact ⟨_, splitDatesByLimit_spec s1 s2 ds de limit h1 h2 hl hlt⟩

/-- C2 witness at the scenario of the specification: the fifteen day
    span is below the ninety day limit and no split is requested. -/
theorem split_none_iff_witness : splitDatesByLimit "01/01/17" "01/15/17" 90 = .ok none :=
  ((split_none_iff "01/01/17" "01/15/17" 17167 17181 90 (by decide) (by decide)
    (by decide) (by decide)).1).mpr (by decide)

/-- C3: in the splitting regime both returned lists have length
    ceil((de - ds) / limit): the length N satisfies the ceiling
    characterisation de - ds ≤ N * limit < de - ds + limit, and equals
    the modelled chunk count ceilTd (de - ds) limit. -/
theorem split_chunk_count (s1 s2 : String) (ds de limit : Int)
    (h1 : parseMDY s1 = some ds) (h2 : parseMDY s2 = some de)
    (hl : 0 < limit) (hD : limit ≤ de - ds) :
    ∃ (N : Nat) (d : SplitDict), splitDatesByLimit s1 s2 limit = .ok (some d) ∧
      d.start_dates.length = N ∧ d.end_dates.length = N ∧
      N = (ceilTd (de - ds) limit).toNat ∧
      de - ds ≤ (N : Int) * limit ∧ (N : Int) * limit < de - ds + limit := by
  obtain ⟨hc1, hc2⟩ := ceilTd_char (de - ds) limit hl
  have hq1 : 1 ≤ ceilTd (de - ds) limit := ceilTd_pos (de - ds) limit hl hD
  have hcast : ((ceilTd (de - ds) limit).toNat : Int) = ceilTd (de - ds) limit :=
    Int.toNat_of_nonneg (by omega)
  refine ⟨(ceilTd (de - ds) limit).toNat, _,
    splitDatesByLimit_spec s1 s2 ds de limit h1 h2 hl hD, ?_, ?_, rfl, ?_, ?_⟩
  · simp [startsFrom_length]
  · simp [endsFrom_length]
  · rw [hcast]; exact hc1
  · rw [hcast]; exact hc2

/-- C3 witness at the scenario of the specification: 729 days split by
    90 give 9 chunks. -/
theorem split_chunk_count_witness :
    ∃ (N : Nat) (d : SplitDict), splitDatesByLimit "01/01/17" "12/31/18" 90 = .ok (some d) ∧
      d.start_dates.length = N ∧ d.end_dates.length = N ∧
      N = (ceilTd ((17896 : Int) - 17167) 90).toNat ∧
      ((17896 : Int) - 17167) ≤ (N : Int) * 90 ∧ (N : Int) * 90 < ((17896 : Int) - 17167) + 90 :=
  split_chunk_count "01/01/17" "12/31/18" 17167 17896 90 (by decide) (by decide)
    (by decide) (by decide)

/-- C4: in the splitting regime the sub-intervals are contiguous at the
    calendar-day level: the day of each end entry plus one equals the
    day of the following start entry, so consecutive sub-intervals
    neither overlap nor leave a gap. -/
theorem split_contiguous (s1 s2 : String) (ds de limit : Int)
    (h1 : parseMDY s1 = some ds) (h2 : parseMDY s2 = some de)
    (hl : 0 < limit) (hD : limit ≤ de - ds) :
    ∃ ss es : List Int,
      splitDatesByLimit s1 s2 limit = .ok (some ⟨ss.map formatTs, es.map formatTs⟩) ∧
      ss.length = es.length ∧
      ∀ i : Nat, i + 1 < ss.length →
        (es.map tsDate).getD i 0 + 1 = (ss.map tsDate).getD (i + 1) 0 := by
  obtain ⟨hc1, hc2⟩ := ceilTd_char (de - ds) limit hl
  have hq1 : 1 ≤ ceilTd (de - ds) limit := ceilTd_pos (de - ds) limit hl hD
  set q := ceilTd (de - ds) limit with hqdef
  refine ⟨startsFrom (ds * nsPerDay) (limit * nsPerDay) 0 q.toNat,
    endsFrom (ds * nsPerDay) (de * nsPerDay) (limit * nsPerDay) 0 q.toNat,
    splitDatesByLimit_spec s1 s2 ds de limit h1 h2 hl hD, ?_, ?_⟩
  · rw [startsFrom_length, endsFrom_length]
  · intro i hi
    rw [startsFrom_length] at hi
    rw [startsFrom_days, endsFrom_days,
      getD_range_map _ _ _ _ (by omega : i < q.toNat),
      getD_range_map _ _ _ _ hi]
    have hle : ((i : Int) + 1) * limit ≤ de - ds := by
      have hcast : (i : Int) + 1 ≤ q - 1 := by omega
      have h3 : ((i : Int) + 1) * limit ≤ (q - 1) * limit :=
        mul_le_mul_of_nonneg_right hcast (le_of_lt hl)
      have h4 : (q - 1) * limit = q * limit - limit := by ring
      linarith
    rw [if_pos hle]
    push_cast
    ring

/-- C4 witness at the scenario of the specification. -/
theorem split_contiguous_witness :
    ∃ ss es : List Int,
      splitDatesByLimit "01/01/17" "12/31/18" 90 =
        .ok (some ⟨ss.map formatTs, es.map formatTs⟩) ∧
      ss.length = es.length ∧
      ∀ i : Nat, i + 1 < ss.length →
        (es.map tsDate).getD i 0 + 1 = (ss.map tsDate).getD (i + 1) 0 :=
  split_contiguous "01/01/17" "12/31/18" 17167 17896 90 (by decide) (by decide)
    (by decide) (by decide)

/-- C5: in the splitting regime the first sub-interval runs from ds to
    ds + limit - 1, every sub-interval spans at most limit days, and
    every sub-interval except possibly the last spans exactly limit
    days, counted inclusively at the calendar-day level. -/
theorem split_chunk_lengths (s1 s2 : String) (ds de limit : Int)
    (h1 : parseMDY s1 = some ds) (h2 : parseMDY s2 = some de)
    (hl : 0 < limit) (hD : limit ≤ de - ds) :
    ∃ ss es : List Int,
      splitDatesByLimit s1 s2 limit = .ok (some ⟨ss.map formatTs, es.map formatTs⟩) ∧
      ss.length = es.length ∧ 0 < ss.length ∧
      (ss.map tsDate).getD 0 0 = ds ∧
      (es.map tsDate).getD 0 0 = ds + limit - 1 ∧
      (∀ i : Nat, i < ss.length →
        (es.map tsDate).getD i 0 - (ss.map tsDate).getD i 0 + 1 ≤ limit) ∧
      (∀ i : Nat, i + 1 < ss.length →
        (es.map tsDate).getD i 0 - (ss.map tsDate).getD i 0 + 1 = limit) := by
  obtain ⟨hc1, hc2⟩ := ceilTd_char (de - ds) limit hl
  have hq1 : 1 ≤ ceilTd (de - ds) limit := ceilTd_pos (de - ds) limit hl hD
  set q := ceilTd (de - ds) limit with hqdef
  have hq0 : 0 < q.toNat := by omega
  refine ⟨startsFrom (ds * nsPerDay) (limit * nsPerDay) 0 q.toNat,
    endsFrom (ds * nsPerDay) (de * nsPerDay) (limit * nsPerDay) 0 q.toNat,
    splitDatesByLimit_spec s1 s2 ds de limit h1 h2 hl hD, ?_, ?_, ?_, ?_, ?_, ?_⟩
  · rw [startsFrom_length, endsFrom_length]
  · rw [startsFrom_length]; exact hq0
  · rw [startsFrom_days, getD_range_map _ _ _ _ hq0]
    push_cast
    ring
  · rw [endsFrom_days, getD_range_map _ _ _ _ hq0]
    rw [if_pos (by push_cast; linarith : (((0 : Nat) : Int) + 1) * limit ≤ de - ds)]
    push_cast
    ring
  · intro i hi
    rw [startsFrom_length] at hi
    rw [startsFrom_days, endsFrom_days, getD_range_map _ _ _ _ hi, getD_range_map _ _ _ _ hi]
    by_cases hle : ((i : Int) + 1) * limit ≤ de - ds
    · rw [if_pos hle]; ring_nf; omega
    · push_neg at hle
      rw [if_neg (not_le.mpr hle)]
      have hiq : (i : Int) ≤ q - 1 := by omega
      nlinarith
  · intro i hi
    rw [startsFrom_length] at hi
    rw [startsFrom_days, endsFrom_days,
      getD_range_map _ _ _ _ (by omega : i < q.toNat),
      getD_range_map _ _ _ _ (by omega : i < q.toNat)]
    have hle : ((i : Int) + 1) * limit ≤ de - ds := by
      have hcast : (i : Int) + 1 ≤ q - 1 := by omega
      have h3 : ((i : Int) + 1) * limit ≤ (q - 1) * limit :=
        mul_le_mul_of_nonneg_right hcast (le_of_lt hl)
      have h4 : (q - 1) * limit = q * limit - limit := by ring
      linarith
    rw [if_pos hle]
    ring

/-- C5 witness at the scenario of the specification. -/
theorem split_chunk_lengths_witness :
    ∃ ss es : List Int,
      splitDatesByLimit "01/01/17" "12/31/18" 90 =
        .ok (some ⟨ss.map formatTs, es.map formatTs⟩) ∧
      ss.length = es.length ∧ 0 < ss.length ∧
      (ss.map tsDate).getD 0 0 = 17167 ∧
      (es.map tsDate).getD 0 0 = 17167 + 90 - 1 ∧
      (∀ i : Nat, i < ss.length →
        (es.map tsDate).getD i 0 - (ss.map tsDate).getD i 0 + 1 ≤ 90) ∧
      (∀ i : Nat, i + 1 < ss.length →
        (es.map tsDate).getD i 0 - (ss.map tsDate).getD i 0 + 1 = 90) :=
  split_chunk_lengths "01/01/17" "12/31/18" 17167 17896 90 (by decide) (by decide)
    (by decide) (by decide)

/-- C10: when the span de - ds is an exact positive multiple k * limit
    of the limit, the function returns exactly k sub-intervals, each
    spanning exactly limit days, the day of the last end entry is
    de - 1, and every end entry lies on or before de - 1, so the final
    day de is covered by no returned sub-interval. -/
theorem split_exact_multiple (s1 s2 : String) (ds de limit k : Int)
    (h1 : parseMDY s1 = some ds) (h2 : parseMDY s2 = some de)
    (hl : 0 < limit) (hk : 1 ≤ k) (hmul : de - ds = k * limit) :
    ∃ ss es : List Int,
      splitDatesByLimit s1 s2 limit = .ok (some ⟨ss.map formatTs, es.map formatTs⟩) ∧
      ss.length = k.toNat ∧ es.length = k.toNat ∧
      (∀ i : Nat, i < k.toNat →
        (es.map tsDate).getD i 0 - (ss.map tsDate).getD i 0 + 1 = limit) ∧
      (es.map tsDate).getD (k.toNat - 1) 0 = de - 1 ∧
      (∀ i : Nat, i < k.toNat → (es.map tsDate).getD i 0 ≤ de - 1) := by
  have hD : limit ≤ de - ds := by nlinarith
  have hq : ceilTd (de - ds) limit = k := by
    obtain ⟨hc1, hc2⟩ := ceilTd_char (de - ds) limit hl
    refine ceil_unique (de - ds) limit (ceilTd (de - ds) limit) k hl hc1 hc2 ?_ ?_
    · rw [hmul]
    · rw [hmul]; linarith
  have hbranch : ∀ i : Nat, i < k.toNat → ((i : Int) + 1) * limit ≤ de - ds := by
    intro i hi
    have hcast : (i : Int) + 1 ≤ k := by omega
    rw [hmul]
    exact mul_le_mul_of_nonneg_right hcast (le_of_lt hl)
  refine ⟨startsFrom (ds * nsPerDay) (limit * nsPerDay) 0 (ceilTd (de - ds) limit).toNat,
    endsFrom (ds * nsPerDay) (de * nsPerDay) (limit * nsPerDay) 0 (ceilTd (de - ds) limit).toNat,
    splitDatesByLimit_spec s1 s2 ds de limit h1 h2 hl hD, ?_, ?_, ?_, ?_, ?_⟩
  · rw [startsFrom_length, hq]
  · rw [endsFrom_length, hq]
  · intro i hi
    rw [hq, startsFrom_days, endsFrom_days, getD_range_map _ _ _ _ hi,
      getD_range_map _ _ _ _ hi, if_pos (hbranch i hi)]
    ring
  · have hlast : k.toNat - 1 < k.toNat := by omega
    rw [hq, endsFrom_days, getD_range_map _ _ _ _ hlast,
      if_pos (hbranch (k.toNat - 1) hlast)]
    have hcast : ((k.toNat - 1 : Nat) : Int) = k - 1 := by omega
    rw [hcast]
    have : (k - 1 + 1) * limit = de - ds := by rw [hmul]; ring
    rw [this]
    ring
  · intro i hi
    rw [hq, endsFrom_days, getD_range_map _ _ _ _ hi, if_pos (hbranch i hi)]
    have h3 : ((i : Int) + 1) * limit ≤ k * limit := by
      exact mul_le_mul_of_nonneg_right (by omega : (i : Int) + 1 ≤ k) (le_of_lt hl)
    have h4 : ds + ((i : Int) + 1) * limit - 1 ≤ ds + k * limit - 1 := by linarith
    linarith [hmul, h4]

/-- C10 witness: from 01/01/17 the span to 04/01/17 is exactly 90 days,
    one chunk of exactly 90 days is returned and its end day is
    03/31/17, one day before the requested end. -/
theorem split_exact_multiple_witness :
    ∃ ss es : List Int,
      splitDatesByLimit "01/01/17" "04/01/17" 90 =
        .ok (some ⟨ss.map formatTs, es.map formatTs⟩) ∧
      ss.length = (1 : Int).toNat ∧ es.length = (1 : Int).toNat ∧
      (∀ i : Nat, i < (1 : Int).toNat →
        (es.map tsDate).getD i 0 - (ss.map tsDate).getD i 0 + 1 = 90) ∧
      (es.map tsDate).getD ((1 : Int).toNat - 1) 0 = 17257 - 1 ∧
      (∀ i : Nat, i < (1 : Int).toNat → (es.map tsDate).getD i 0 ≤ 17257 - 1) :=
  split_exact_multiple "01/01/17" "04/01/17" 17167 17257 90 1 (by decide) (by decide)
    (by decide) (by decide) (by decide)

/-! Machinery for the partition and round-trip property: the list of
    calendar days covered by a closed interval, and the concatenation of
    the days covered by each returned sub-interval. -/

/-- The calendar days of the closed interval from a to b. -/
def intervalDays (a b : Int) : List Int :=
  (List.range (b - a + 1).toNat).map fun (i : Nat) => a + (i : Int)

/-- Re-joining sub-intervals: the concatenation, in call order, of the
    days covered by each (start, end) pair. -/
def joinDays (ss es : List Int) : List Int :=
  (ss.zip es).flatMap fun p => intervalDays p.1 p.2

/-- Two adjacent closed intervals of days concatenate to one. -/
theorem intervalDays_append (a b c : Int) (hab : a ≤ b + 1) (hbc : b ≤ c) :
    intervalDays a b ++ intervalDays (b + 1) c = intervalDays a c := by
  unfold intervalDays
  have hn : (c - a + 1).toNat = (b - a + 1).toNat + (c - (b + 1) + 1).toNat := by omega
  rw [hn, List.range_add, List.map_append, List.map_map]
  congr 1
  congr 1
  funext i
  simp only [Function.comp]
  omega

/-- Joining a chain of contiguous nonempty chunks yields the single
    interval from the first start to the last end. -/
theorem join_chunks (ps : List (Int × Int)) :
    ∀ p0 : Int × Int,
      (∀ p ∈ p0 :: ps, p.1 ≤ p.2) →
      List.Chain' (fun p q : Int × Int => p.2 + 1 = q.1) (p0 :: ps) →
      ∀ c, (p0 :: ps).getLast? = some c →
        (p0 :: ps).flatMap (fun p => intervalDays p.1 p.2) = intervalDays p0.1 c.2 ∧
        p0.1 ≤ c.2 := by
  induction ps with
  | nil =>
    rintro ⟨a, b⟩ hmem - c hc
    simp only [List.getLast?_singleton, Option.some.injEq] at hc
    subst hc
    constructor
    · simp
    · exact hmem (a, b) (by simp)
  | cons p1 tl ih =>
    rintro ⟨a, b⟩ hmem hchain c hc
    obtain ⟨a1, b1⟩ := p1
    have hlink : b + 1 = a1 := (List.chain'_cons.mp hchain).1
    have hchain1 : List.Chain' (fun p q : Int × Int => p.2 + 1 = q.1) ((a1, b1) :: tl) :=
      (List.chain'_cons.mp hchain).2
    have hmem1 : ∀ p ∈ (a1, b1) :: tl, p.1 ≤ p.2 := fun p hp => hmem p (List.mem_cons_of_mem _ hp)
    have hc1 : ((a1, b1) :: tl).getLast? = some c := by
      rw [← List.getLast?_cons_cons]
      exact hc
    obtain ⟨hbind, hle⟩ := ih (a1, b1) hmem1 hchain1 c hc1
    have hab : a ≤ b := hmem (a, b) (by simp)
    have hbc : b ≤ c.2 := by omega
    constructor
    · rw [List.flatMap_cons, hbind]
      have e : intervalDays a1 c.2 = intervalDays (b + 1) c.2 := by rw [hlink]
      rw [e]
      exact intervalDays_append a b c.2 (by omega) hbc
    · omega

/-- The last entry of a nonempty mapped range. -/
theorem getLast?_range_map {α : Type} (f : Nat → α) (n : Nat) (h : 0 < n) :
    ((List.range n).map f).getLast? = some (f (n - 1)) := by
  rw [List.getLast?_eq_getElem? _, List.getElem?_map, List.length_map, List.length_range,
    List.getElem?_range (by omega : n - 1 < n)]
  rfl

/-- Day-level partition result: joining the calendar-day intervals of
    the chunks reconstructs the full interval from ds up to the last
    end day, which is de when the limit does not divide the span and
    de - 1 when it does. -/
theorem split_partition_days (ds de limit : Int) (hl : 0 < limit) (hD : limit ≤ de - ds) :
    joinDays
      ((startsFrom (ds * nsPerDay) (limit * nsPerDay) 0
        (ceilTd (de - ds) limit).toNat).map tsDate)
      ((endsFrom (ds * nsPerDay) (de * nsPerDay) (limit * nsPerDay) 0
        (ceilTd (de - ds) limit).toNat).map tsDate) =
      intervalDays ds (if limit ∣ de - ds then de - 1 else de) ∧
    ((endsFrom (ds * nsPerDay) (de * nsPerDay) (limit * nsPerDay) 0
        (ceilTd (de - ds) limit).toNat).map tsDate).getLast? =
      some (if limit ∣ de - ds then de - 1 else de) := by
  obtain ⟨hc1, hc2⟩ := ceilTd_char (de - ds) limit hl
  have hq1 : 1 ≤ ceilTd (de - ds) limit := ceilTd_pos (de - ds) limit hl hD
  set q := ceilTd (de - ds) limit with hqdef
  set fe := fun (i : Nat) =>
    if ((i : Int) + 1) * limit ≤ de - ds then ds + ((i : Int) + 1) * limit - 1 else de with hfe
  have hlastval : fe (q.toNat - 1) = if limit ∣ de - ds then de - 1 else de := by
    have hcastN : ((q.toNat - 1 : Nat) : Int) = q - 1 := by omega
    rw [hfe]
    simp only [hcastN]
    by_cases hdvd : limit ∣ de - ds
    · have hdvd2 := hdvd
      obtain ⟨t, ht⟩ := hdvd2
      have hqt : q = t := by
        have h5 : (q - t) * limit < 1 * limit := by
          rw [sub_mul, one_mul]
          linarith [ht]
        have h6 : 0 * limit ≤ (q - t) * limit := by
          rw [sub_mul, zero_mul]
          linarith [ht]
        have h7 : q - t < 1 := lt_of_mul_lt_mul_right h5 (le_of_lt hl)
        have h8 : 0 ≤ q - t := le_of_mul_le_mul_right h6 hl
        omega
      have hcond : (q - 1 + 1) * limit ≤ de - ds := by
        rw [ht, hqt]
        exact le_of_eq (by ring)
      rw [if_pos hcond, if_pos hdvd]
      have e : (q - 1 + 1) * limit = de - ds := by rw [ht, hqt]; ring
      rw [e]
      ring
    · rw [if_neg hdvd, if_neg ?_]
      intro hcon
      have e : (q - 1 + 1) * limit = q * limit := by ring
      rw [e] at hcon
      exact hdvd ⟨q, by linarith [mul_comm q limit]⟩
  rw [startsFrom_days, endsFrom_days, ← hfe]
  obtain ⟨m, hm⟩ : ∃ m, q.toNat = m + 1 := ⟨q.toNat - 1, by omega⟩
  constructor
  · unfold joinDays
    rw [List.zip_map']
    set h := fun (i : Nat) => (ds + (i : Int) * limit, fe i) with hh
    have hmem : ∀ p ∈ (List.range q.toNat).map h, p.1 ≤ p.2 := by
      intro p hp
      rw [List.mem_map] at hp
      obtain ⟨i, hi, rfl⟩ := hp
      rw [List.mem_range] at hi
      rw [hh]
      simp only
      rw [hfe]
      simp only
      by_cases hcnd : ((i : Int) + 1) * limit ≤ de - ds
      · rw [if_pos hcnd]
        nlinarith
      · rw [if_neg hcnd]
        have hiq : (i : Int) ≤ q - 1 := by omega
        nlinarith
    have hchain : List.Chain' (fun p1 p2 : Int × Int => p1.2 + 1 = p2.1)
        ((List.range q.toNat).map h) := by
      rw [List.chain'_map, hm]
      refine (List.chain'_range_succ _ m).mpr ?_
      intro i hi
      rw [hh]
      simp only
      rw [hfe]
      simp only
      have hcnd : ((i : Int) + 1) * limit ≤ de - ds := by
        have hcast : (i : Int) + 1 ≤ q - 1 := by omega
        have h3 : ((i : Int) + 1) * limit ≤ (q - 1) * limit :=
          mul_le_mul_of_nonneg_right hcast (le_of_lt hl)
        have h4 : (q - 1) * limit = q * limit - limit := by ring
        linarith
      rw [if_pos hcnd]
      push_cast
      ring
    have hlast : ((List.range q.toNat).map h).getLast? = some (h (q.toNat - 1)) :=
      getLast?_range_map h q.toNat (by omega)
    have e : (List.range q.toNat).map h = h 0 :: ((List.range m).map Nat.succ).map h := by
      rw [hm, List.range_succ_eq_map, List.map_cons]
    rw [e] at hmem hchain hlast ⊢
    obtain ⟨hbind, -⟩ := join_chunks (((List.range m).map Nat.succ).map h) (h 0)
      hmem hchain (h (q.toNat - 1)) hlast
    rw [hbind, hh]
    simp only
    rw [hlastval]
    congr 1
    push_cast
    ring
  · rw [getLast?_range_map fe q.toNat (by omega), hlastval]

/-- C1 counterexample: from 01/01/17 to 04/01/17 the span is exactly
    90 days, the limit; the single returned sub-interval ends at
    03/31/17, so the last end date differs from the requested end and
    the joined days cover 17167 to 17256 but not the end day 17257. -/
theorem split_partition_counterexample :
    splitDatesByLimit "01/01/17" "04/01/17" 90 =
      .ok (some ⟨["01/01/17"], ["03/31/17"]⟩) ∧
    parseMDY "01/01/17" = some 17167 ∧
    parseMDY "04/01/17" = some 17257 ∧
    parseMDY "03/31/17" = some 17256 ∧
    (17257 : Int) - 17167 = 90 ∧
    ¬ (["03/31/17"].getLast? = some "04/01/17") ∧
    ¬ ((17257 : Int) ∈ joinDays [17167] [17256]) := by decide

/-- C1 (amended): in the splitting regime the sub-intervals partition an
    initial segment of the requested interval exactly: when the limit
    does not divide the span, joining the calendar days of all
    sub-intervals in order reconstructs the days of the full interval
    from ds to de with no day repeated, and the last end day is de;
    when the limit divides the span exactly, the joined days
    reconstruct the interval from ds to de - 1 and the last end day is
    de - 1, leaving the requested end day uncovered. -/
theorem split_partition (s1 s2 : String) (ds de limit : Int)
    (h1 : parseMDY s1 = some ds) (h2 : parseMDY s2 = some de)
    (hl : 0 < limit) (hD : limit ≤ de - ds) :
    ∃ ss es : List Int,
      splitDatesByLimit s1 s2 limit = .ok (some ⟨ss.map formatTs, es.map formatTs⟩) ∧
      ((¬ limit ∣ de - ds) →
        joinDays (ss.map tsDate) (es.map tsDate) = intervalDays ds de ∧
        (es.map tsDate).getLast? = some de) ∧
      ((limit ∣ de - ds) →
        joinDays (ss.map tsDate) (es.map tsDate) = intervalDays ds (de - 1) ∧
        (es.map tsDate).getLast? = some (de - 1)) := by
  obtain ⟨hjoin, hlast⟩ := split_partition_days ds de limit hl hD
  refine ⟨startsFrom (ds * nsPerDay) (limit * nsPerDay) 0 (ceilTd (de - ds) limit).toNat,
    endsFrom (ds * nsPerDay) (de * nsPerDay) (limit * nsPerDay) 0 (ceilTd (de - ds) limit).toNat,
    splitDatesByLimit_spec s1 s2 ds de limit h1 h2 hl hD, ?_, ?_⟩
  · intro hnd
    rw [if_neg hnd] at hjoin hlast
    exact ⟨hjoin, hlast⟩
  · intro hd
    rw [if_pos hd] at hjoin hlast
    exact ⟨hjoin, hlast⟩

/-- C1 witness at the scenario of the specification, where
    729 = 8 * 90 + 9 is not a multiple of the limit. -/
theorem split_partition_witness :
    ∃ ss es : List Int,
      splitDatesByLimit "01/01/17" "12/31/18" 90 =
        .ok (some ⟨ss.map formatTs, es.map formatTs⟩) ∧
      ((¬ (90 : Int) ∣ (17896 : Int) - 17167) →
        joinDays (ss.map tsDate) (es.map tsDate) = intervalDays 17167 17896 ∧
        (es.map tsDate).getLast? = some 17896) ∧
      (((90 : Int) ∣ (17896 : Int) - 17167) →
        joinDays (ss.map tsDate) (es.map tsDate) = intervalDays 17167 (17896 - 1) ∧
        (es.map tsDate).getLast? = some (17896 - 1)) :=
  split_partition "01/01/17" "12/31/18" 17167 17896 90 (by decide) (by decide)
    (by decide) (by decide)

/-- C6: the documented scenario, computed through the full string
    pipeline: parsing, nanosecond chunking and strftime rendering. -/
theorem split_example_scenario :
    splitDatesByLimit "01/01/17" "12/31/18" 90 =
      .ok (some ⟨["01/01/17", "04/01/17", "06/30/17", "09/28/17", "12/27/17", "03/27/18",
                  "06/25/18", "09/23/18", "12/22/18"],
                 ["03/31/17", "06/29/17", "09/27/17", "12/26/17", "03/26/18", "06/24/18",
                  "09/22/18", "12/21/18", "12/31/18"]⟩) := by decide

/-- C7 counterexample: a strictly negative limit is not rejected; the
    call returns a dictionary with one degenerate sub-interval instead
    of failing with any error. -/
theorem invalid_limit_counterexample :
    splitDatesByLimit "01/01/17" "12/31/18" (-5) =
      .ok (some ⟨["01/01/17"], ["12/26/16"]⟩) := by decide

/-- C7 (amended): the source never validates the limit. With limit zero
    and parsable dates in order, the call fails with the uncaught
    division by zero arising in math.ceil(dt_delta / limit), not with a
    dedicated invalid-limit error; with a strictly negative limit the
    call does not fail at all and returns a dictionary holding one
    degenerate sub-interval. -/
theorem nonpositive_limit_behavior (s1 s2 : String) (ds de : Int)
    (h1 : parseMDY s1 = some ds) (h2 : parseMDY s2 = some de) (hse : ds ≤ de) :
    splitDatesByLimit s1 s2 0 = .error .zeroDivision ∧
    ∀ limit : Int, limit < 0 →
      ∃ d : SplitDict, splitDatesByLimit s1 s2 limit = .ok (some d) := by
  have hdelta : 0 ≤ de * nsPerDay - ds * nsPerDay := by
    have e : de * nsPerDay - ds * nsPerDay = (de - ds) * nsPerDay := by ring
    rw [e]
    exact mul_nonneg (by omega) (le_of_lt nsPerDay_pos)
  constructor
  · unfold splitDatesByLimit
    rw [h1, h2]
    show Except.map
        (Option.map fun p => (⟨p.1.map formatTs, p.2.map formatTs⟩ : SplitDict))
        (splitCore (ds * nsPerDay) (de * nsPerDay) (0 * nsPerDay)) = _
    simp only [splitCore]
    rw [zero_mul, if_neg (not_lt.mpr hdelta), if_pos rfl]
    rfl
  · intro limit hneg
    have hLneg : limit * nsPerDay < 0 := mul_neg_of_neg_of_pos hneg nsPerDay_pos
    have hcore : splitCore (ds * nsPerDay) (de * nsPerDay) (limit * nsPerDay) =
        .ok (some (splitLoop (limit * nsPerDay) (de * nsPerDay)
          (ceilTd (de * nsPerDay - ds * nsPerDay) (limit * nsPerDay) - 1).toNat
          (ds * nsPerDay + limit * nsPerDay) (ds * nsPerDay + limit * nsPerDay - 1)
          [ds * nsPerDay] [ds * nsPerDay + limit * nsPerDay - 1])) := by
      simp only [splitCore]
      rw [if_neg (not_lt.mpr (le_trans (le_of_lt hLneg) hdelta)),
        if_neg (ne_of_lt hLneg)]
    have hmain : splitDatesByLimit s1 s2 limit =
        .ok (some ⟨((splitLoop (limit * nsPerDay) (de * nsPerDay)
          (ceilTd (de * nsPerDay - ds * nsPerDay) (limit * nsPerDay) - 1).toNat
          (ds * nsPerDay + limit * nsPerDay) (ds * nsPerDay + limit * nsPerDay - 1)
          [ds * nsPerDay] [ds * nsPerDay + limit * nsPerDay - 1]).1).map formatTs,
          ((splitLoop (limit * nsPerDay) (de * nsPerDay)
          (ceilTd (de * nsPerDay - ds * nsPerDay) (limit * nsPerDay) - 1).toNat
          (ds * nsPerDay + limit * nsPerDay) (ds * nsPerDay + limit * nsPerDay - 1)
          [ds * nsPerDay] [ds * nsPerDay + limit * nsPerDay - 1]).2).map formatTs⟩) := by
      unfold splitDatesByLimit
      rw [h1, h2]
      show Except.map
          (Option.map fun p => (⟨p.1.map formatTs, p.2.map formatTs⟩ : SplitDict))
          (splitCore (ds * nsPerDay) (de * nsPerDay) (limit * nsPerDay)) = _
      rw [hcore]
      rfl
    exact ⟨_, hmain⟩

/-- C7 witness: limit zero on the documented range fails with the
    division by zero error. -/
theorem nonpositive_limit_witness :
    splitDatesByLimit "01/01/17" "12/31/18" 0 = .error .zeroDivision :=
  (nonpositive_limit_behavior "01/01/17" "12/31/18" 17167 17896 (by decide) (by decide)
    (by decide)).1

/-- C8: whenever either date string fails to parse under the format,
    the call fails fast with the malformed-input error and produces no
    partial output. -/
theorem malformed_input_error (s1 s2 : String) (limit : Int)
    (h : parseMDY s1 = none ∨ parseMDY s2 = none) :
    splitDatesByLimit s1 s2 limit = .error .malformedInput := by
  unfold splitDatesByLimit
  rcases h with h | h
  · rw [h]
  · rw [h]
    cases parseMDY s1 <;> rfl

/-- C8 witness: an ISO formatted start date does not parse under
    %m/%d/%y and the call fails with the malformed-input error. -/
theorem malformed_input_witness :
    splitDatesByLimit "2017-01-01" "12/31/18" 90 = .error .malformedInput :=
  malformed_input_error "2017-01-01" "12/31/18" 90 (Or.inl (by decide))

/-- C9: split_dates_by_limit is modelled as a total pure function, so
    two calls on equal start dates, end dates and limits return equal
    results; the model performs no input or output effects. -/
theorem split_deterministic (s1 s2 t1 t2 : String) (l1 l2 : Int)
    (hs : s1 = t1) (he : s2 = t2) (hl : l1 = l2) :
    splitDatesByLimit s1 s2 l1 = splitDatesByLimit t1 t2 l2 := by
  rw [hs, he, hl]

/-- C9 witness at the documented scenario. -/
theorem split_deterministic_witness :
    splitDatesByLimit "01/01/17" "12/31/18" 90 = splitDatesByLimit "01/01/17" "12/31/18" 90 :=
  split_deterministic "01/01/17" "12/31/18" "01/01/17" "12/31/18" 90 90 rfl rfl rfl

end Oasis
